import Mathlib

/-!
Verification of the PPM canvas encoder from `src/canvas.rs`.

The Rust code is shallowly embedded: `f32` channel values are modelled as
rationals (every channel value appearing in the claims — 0, 1/2, 1, 3/2, -1/2,
and their clamped/scaled images 127.5, 255, … — is exactly representable in
`f32`, and the clamp/multiply/round operations the code performs on them are
exact, so the rational model agrees with the IEEE computation on all inputs the
claims mention).  Byte buffers are `List Nat` of byte values, machine integers
are `Nat`, and operations that panic in Rust (index out of bounds, integer
underflow) are modelled with `Except Unit`, `.error ()` standing for a panic.
-/

set_option maxRecDepth 100000

namespace Canvas2Proof

/-- Color, from `struct Color(pub Vert3)` in src/canvas.rs: a triple of `f32`
channel values, modelled as rationals. -/
structure Color where
  r : ℚ
  g : ℚ
  b : ℚ
deriving DecidableEq

/-- Black, `Color(Vert3::ZERO)`. -/
def black : Color := ⟨0, 0, 0⟩

/-- Canvas, from `struct Canvas { width, height, data }` in src/canvas.rs.
`data` is the row-major pixel store (`Box<[Color]>`). -/
structure Canvas where
  width : Nat
  height : Nat
  data : List Color
deriving DecidableEq

/-- Canvas::new from src/canvas.rs lines 76-90: allocates `width * height`
cells and writes black into every one.  The Rust code performs no validation
of the dimensions. -/
def Canvas.new (width height : Nat) : Canvas :=
  { width := width, height := height, data := List.replicate (width * height) black }

/-- Canvas::write_pixel from src/canvas.rs lines 91-95: stores the color at
row-major index `y * width + x`.  (`List.set` is a no-op out of range; the
claims only concern in-range coordinates, where the Rust indexing succeeds.) -/
def Canvas.write_pixel (c : Canvas) (p : Nat × Nat) (pixel_color : Color) : Canvas :=
  { c with data := c.data.set (p.2 * c.width + p.1) pixel_color }

/-- Canvas::pixel_at from src/canvas.rs lines 96-100: reads the color at
row-major index `y * width + x`; `none` models the out-of-range panic. -/
def Canvas.pixel_at (c : Canvas) (p : Nat × Nat) : Option Color :=
  c.data.get? (p.2 * c.width + p.1)

/-- Floor of a rational computed as integer division of numerator by
denominator, exactly the formula of Mathlib `Rat.floor_def`. -/
def ratFloor (q : ℚ) : ℤ := q.num / (q.den : ℤ)

/-- Rust `f32::round`: round half away from zero. -/
def rustRound (q : ℚ) : ℤ :=
  if 0 ≤ q then ratFloor (q + 1/2) else -(ratFloor (-q + 1/2))

/-- Rust `f32::clamp(0., 1.)` as used in PPMReader::new (src/canvas.rs
lines 302-328): below the interval gives 0, above gives 1, otherwise the
value itself. -/
def clamp01 (q : ℚ) : ℚ := if q < 0 then 0 else if 1 < q then 1 else q

/-- Quantized channel value `(value.clamp(0., 1.) * color_scale).round()` with
`color_scale = 255`, from PPMReader::new (src/canvas.rs lines 302-328). -/
def chanInt (q : ℚ) : ℤ := rustRound (clamp01 q * 255)

/-- The quantized channel as the natural number whose decimal digits `format!`
prints (the value is provably nonnegative). -/
def chanByte (q : ℚ) : Nat := (chanInt q).toNat

/-- Decimal digit bytes of `n`, most significant first, by repeated division;
`fuel` bounds the recursion (any `fuel ≥ n` computes all digits). -/
def decBytesAux : Nat → Nat → List Nat
  | 0, _ => []
  | fuel + 1, n =>
    if n = 0 then [] else decBytesAux fuel (n / 10) ++ [48 + n % 10]

/-- ASCII decimal representation of a natural number, as produced by Rust
`format!` on a nonnegative integral value. -/
def decBytes (n : Nat) : List Nat :=
  if n = 0 then [48] else decBytesAux (n + 1) n

/-- One emitted channel group `format!("{} ", v)`: decimal digits followed by
a single space (src/canvas.rs lines 303-328). -/
def tok (v : Nat) : List Nat := decBytes v ++ [32]

/-- The magic field `[b'P', b'3', b'\n']` of PPMHeader::default
(src/canvas.rs lines 126-135). -/
def magicBytes : List Nat := [80, 51, 10]

/-- Width field bytes `format!("{} ", width)` (src/canvas.rs line 179). -/
def widthField (w : Nat) : List Nat := decBytes w ++ [32]

/-- Height field bytes `format!("{}\n", height)` (src/canvas.rs line 195). -/
def heightField (h : Nat) : List Nat := decBytes h ++ [10]

/-- Color-scale field bytes `format!("{}\n", 255)` = "255\n"
(src/canvas.rs line 211). -/
def scaleField : List Nat := [50, 53, 53, 10]

/-- The complete header byte sequence `P3\n{w} {h}\n255\n`. -/
def fullHeader (w h : Nat) : List Nat :=
  magicBytes ++ widthField w ++ heightField h ++ scaleField

/-- States of PPMHeaderReader (src/canvas.rs lines 136-142). -/
inductive HState where
  | magic
  | width
  | height
  | colorScale
  | finished
deriving DecidableEq

/-- Result of one call of `PPMHeaderReader::read`: final machine state, final
`written` offset, the bytes this call stored into the caller's buffer starting
at the entry offset, and the returned count `Ok(n)`. -/
structure HdrOut where
  state : HState
  written : Nat
  bytes : List Nat
  ret : Nat
deriving DecidableEq

/-- ColorScale arm of PPMHeaderReader::read (src/canvas.rs lines 209-224),
including the `remaining == 0` early return at its re-entry (lines 162-166):
writes up to 4 bytes of "255\n", sets the state to Finished and returns the
accumulated `written`. -/
def hdrReadScale (bufLen written : Nat) : HdrOut :=
  if bufLen - written = 0 then ⟨.finished, written, [], 0⟩
  else
    let t := min (bufLen - written) scaleField.length
    ⟨.finished, written + t, scaleField.take t, written + t⟩

/-- Height arm of PPMHeaderReader::read (src/canvas.rs lines 193-208) plus the
`remaining == 0` early return at its re-entry: writes a prefix of the height
field, advances the state and tail-calls the ColorScale arm. -/
def hdrReadHeight (h bufLen written : Nat) : HdrOut :=
  if bufLen - written = 0 then ⟨.finished, written, [], 0⟩
  else
    let f := heightField h
    let t := min (bufLen - written) f.length
    let o := hdrReadScale bufLen (written + t)
    ⟨o.state, o.written, f.take t ++ o.bytes, o.ret⟩

/-- Width arm of PPMHeaderReader::read (src/canvas.rs lines 177-192) plus the
`remaining == 0` early return at its re-entry. -/
def hdrReadWidth (w h bufLen written : Nat) : HdrOut :=
  if bufLen - written = 0 then ⟨.finished, written, [], 0⟩
  else
    let f := widthField w
    let t := min (bufLen - written) f.length
    let o := hdrReadHeight h bufLen (written + t)
    ⟨o.state, o.written, f.take t ++ o.bytes, o.ret⟩

/-- Magic arm of PPMHeaderReader::read (src/canvas.rs lines 169-176) plus the
`remaining == 0` early return at its entry. -/
def hdrReadMagic (w h bufLen written : Nat) : HdrOut :=
  if bufLen - written = 0 then ⟨.finished, written, [], 0⟩
  else
    let t := min (bufLen - written) magicBytes.length
    let o := hdrReadWidth w h bufLen (written + t)
    ⟨o.state, o.written, magicBytes.take t ++ o.bytes, o.ret⟩

/-- One call of PPMHeaderReader::read (src/canvas.rs lines 157-227) from an
arbitrary state: the Finished check of lines 159-161, then the state dispatch.
The recursive `self.read(buf)` calls of the source are the tail calls chaining
the four arm functions above. -/
def hdrRead (w h bufLen : Nat) (st : HState) (written : Nat) : HdrOut :=
  match st with
  | .finished => ⟨.finished, written, [], 0⟩
  | .magic => hdrReadMagic w h bufLen written
  | .width => hdrReadWidth w h bufLen written
  | .height => hdrReadHeight h bufLen written
  | .colorScale => hdrReadScale bufLen written

/-- Bytes `read_to_end` obtains from a fresh PPMHeaderReader: its first call
passes a 32-byte probe buffer (std `default_read_to_end` on an empty Vec), and
the reader answers every later call with `Ok(0)` because every exit path of the
first call leaves the state Finished.  The caller keeps the first `ret` bytes
of the probe buffer. -/
def hdrDelivered (w h bufLen : Nat) : List Nat :=
  let o := hdrReadMagic w h bufLen 0
  o.bytes.take o.ret

/-- Concatenation of the byte chunks a caller obtains by repeatedly calling
PPMHeaderReader::read with a fresh zeroed buffer of size `bufLen`: each call
delivers the first `ret` bytes of its buffer, whose positions below the entry
`written` offset were never written by the reader (modelled as zeros). -/
def hdrDriveAux (w h bufLen : Nat) : Nat → HState → Nat → List Nat
  | 0, _, _ => []
  | calls + 1, st, written =>
    let o := hdrRead w h bufLen st written
    (List.replicate written 0 ++ o.bytes).take o.ret ++
      hdrDriveAux w h bufLen calls o.state o.written
/-- Total bytes delivered by `calls` incremental reads from a fresh reader. -/
def hdrDrive (w h bufLen calls : Nat) : List Nat :=
  hdrDriveAux w h bufLen calls .magic 0

/-- Backward scan of the line-wrap loop of PPMReader::new (src/canvas.rs lines
336-347), started at index 70: at each index, a byte equal to `b' '` is
replaced (`.ok (some idx)`), `get_mut` returning `None` breaks the loop
(`.ok none`), and any other byte decrements `nl_idx` — which underflows and
panics in a debug build when the index is already 0 (`.error ()`). -/
def scanBack (b : List Nat) : Nat → Except Unit (Option Nat)
  | 0 =>
    match b[0]? with
    | some v => if v = 32 then .ok (some 0) else .error ()
    | none => .ok none
  | i + 1 =>
    match b[i + 1]? with
    | some v => if v = 32 then .ok (some (i + 1)) else scanBack b i
    | none => .ok none

/-- Line-wrap step of PPMReader::new (src/canvas.rs lines 332-348): only when
the raw row buffer is longer than 70 bytes, scan backward from column 70 and
replace the found space, once, by a newline. -/
def wrapRow (b : List Nat) : Except Unit (List Nat) :=
  if 70 < b.length then
    match scanBack b 70 with
    | .error e => .error e
    | .ok none => .ok b
    | .ok (some i) => .ok (b.set i 10)
  else .ok b

/-- Trailing-separator fixup of PPMReader::new (src/canvas.rs lines 350-354):
if the last byte of the row buffer is a space, it becomes a newline. -/
def fixLast (b : List Nat) : List Nat :=
  if b.getLast? = some 32 then b.set (b.length - 1) 10 else b

/-- Row chunking, `canvas.data.chunks(canvas.width)` (src/canvas.rs line 296);
`fuel` bounds the recursion (any `fuel ≥ l.length` with `w > 0` computes all
chunks). -/
def chunksOfAux {α : Type} (w : Nat) : Nat → List α → List (List α)
  | 0, _ => []
  | _ + 1, [] => []
  | fuel + 1, a :: l => (a :: l).take w :: chunksOfAux w fuel ((a :: l).drop w)

/-- All `w`-sized chunks of `l` (the last one possibly shorter), as produced by
Rust `slice::chunks(w)` for `w > 0`. -/
def chunksOf {α : Type} (w : Nat) (l : List α) : List (List α) :=
  chunksOfAux w l.length l

/-- Raw row buffer built by the inner loop of PPMReader::new (src/canvas.rs
lines 300-330): for every pixel of the row, in order, the three quantized
channel groups each followed by a space. -/
def rawRow (row : List (List Nat)) : List Nat := (row.flatten.map tok).flatten

/-- One row of the pixel-data section: the raw buffer after the line-wrap step
and the trailing-separator fixup (src/canvas.rs lines 332-354). -/
def encodeRow (row : List (List Nat)) : Except Unit (List Nat) :=
  match wrapRow (rawRow row) with
  | .error e => .error e
  | .ok b => .ok (fixLast b)

/-- The per-row loop of PPMReader::new over all chunks, stopping at the first
panic. -/
def encodeRows : List (List (List Nat)) → Except Unit (List (List Nat))
  | [] => .ok []
  | r :: rs =>
    match encodeRow r with
    | .error e => .error e
    | .ok b =>
      match encodeRows rs with
      | .error e => .error e
      | .ok bs => .ok (b :: bs)

/-- Byte assembly of PPMReader::new (src/canvas.rs lines 283-367) on the
already-quantized pixels: `slice::chunks(width)` asserts `width != 0`
(first error case); the rows are encoded in order and collected into
`chunk_buffer`, a vector of length `width` indexed by the row number, so a
canvas with more rows than columns panics on the out-of-bounds index (second
error case); finally the header bytes obtained by `read_to_end` are followed
by the flattened row buffers. -/
def ppmAssemble (w h : Nat) (pixels : List (List Nat)) : Except Unit (List Nat) :=
  if w = 0 then .error ()
  else
    match encodeRows (chunksOf w pixels) with
    | .error e => .error e
    | .ok bs =>
      if (chunksOf w pixels).length ≤ w then .ok (hdrDelivered w h 32 ++ bs.flatten)
      else .error ()

/-- The three quantized channel values of one pixel, in r, g, b order
(src/canvas.rs lines 302-328). -/
def quantPixel (c : Color) : List Nat := [chanByte c.r, chanByte c.g, chanByte c.b]

/-- Quantized channel values of the whole canvas, row-major. -/
def quantCanvas (c : Canvas) : List (List Nat) := c.data.map quantPixel

/-- The complete `inner_buf` computed by PPMReader::new (src/canvas.rs lines
283-367), `.error ()` modelling a panic. -/
def ppmEncode (c : Canvas) : Except Unit (List Nat) :=
  ppmAssemble c.width c.height (quantCanvas c)

instance {ε α : Type} [DecidableEq ε] [DecidableEq α] : DecidableEq (Except ε α) := fun x y =>
  match x, y with
  | .ok a, .ok b => decidable_of_iff (a = b) (by simp)
  | .error a, .error b => decidable_of_iff (a = b) (by simp)
  | .ok _, .error _ => isFalse fun h => Except.noConfusion h
  | .error _, .ok _ => isFalse fun h => Except.noConfusion h

/-- One call of `<PPMReader as Read>::read` (src/canvas.rs lines 234-246) on a
reader with buffer `inner` and cursor `r`, given a caller buffer of size
`bufLen`: returns the bytes the loop copies into the front of the caller's
buffer, the returned count `Ok(min(inner.len(), buf.len()))`, and the new
cursor. -/
def ppmReadStep (inner : List Nat) (r bufLen : Nat) : List Nat × Nat × Nat :=
  if inner.length ≤ r then ([], 0, r)
  else
    let copied := min (inner.length - r) bufLen
    ((inner.drop r).take copied, min inner.length bufLen, r + copied)

/-- White, `Color(Vert3([1., 1., 1.]))`. -/
def white : Color := ⟨1, 1, 1⟩

/-- A 12-pixel-wide, 1-pixel-high canvas with every pixel white. -/
def canvasC1 : Canvas := ⟨12, 1, List.replicate 12 white⟩

/-- The 5x3 canvas of the round-trip scenario: three pixels written on a fresh
canvas. -/
def canvasC4 : Canvas :=
  (((Canvas.new 5 3).write_pixel (0, 0) ⟨3/2, 0, 0⟩).write_pixel
      (2, 1) ⟨0, 1/2, 0⟩).write_pixel (4, 2) ⟨-(1/2), 0, 1⟩

/-- The expected encoding of `canvasC4`:
"P3\n5 3\n255\n255 0 0 0 0 0 0 0 0 0 0 0 0 0 0\n0 0 0 0 0 0 0 128 0 0 0 0 0 0 0\n0 0 0 0 0 0 0 0 0 0 0 0 0 0 255\n". -/
def bytesC4 : List Nat :=
  [80, 51, 10, 53, 32, 51, 10, 50, 53, 53, 10,
   50, 53, 53, 32, 48, 32, 48, 32, 48, 32, 48, 32, 48, 32, 48, 32, 48, 32,
   48, 32, 48, 32, 48, 32, 48, 32, 48, 32, 48, 32, 48, 10,
   48, 32, 48, 32, 48, 32, 48, 32, 48, 32, 48, 32, 48, 32, 49, 50, 56, 32,
   48, 32, 48, 32, 48, 32, 48, 32, 48, 32, 48, 32, 48, 10,
   48, 32, 48, 32, 48, 32, 48, 32, 48, 32, 48, 32, 48, 32, 48, 32, 48, 32,
   48, 32, 48, 32, 48, 32, 48, 32, 48, 32, 50, 53, 53, 10]

/-- A fresh all-black 5x3 canvas. -/
def canvas53 : Canvas := Canvas.new 5 3

/-- The encoding of the all-black 5x3 canvas:
"P3\n5 3\n255\n" followed by three lines of fifteen zeros. -/
def bytes53 : List Nat :=
  [80, 51, 10, 53, 32, 51, 10, 50, 53, 53, 10] ++
  (List.replicate 14 [48, 32]).flatten ++ [48, 10] ++
  (List.replicate 14 [48, 32]).flatten ++ [48, 10] ++
  (List.replicate 14 [48, 32]).flatten ++ [48, 10]

end Canvas2Proof

namespace Canvas2Proof

/-! Quantization lemmas: the rational computation of `chanInt` is the floor of
`clamp01 q * 255 + 1/2`, always in `[0, 255]`. -/

theorem ratFloor_eq (q : ℚ) : ratFloor q = ⌊q⌋ := by
  rw [ratFloor, Rat.floor_def]

theorem clamp01_nonneg (q : ℚ) : 0 ≤ clamp01 q := by
  unfold clamp01
  by_cases h1 : q < 0
  · rw [if_pos h1]
  · rw [if_neg h1]
    by_cases h2 : 1 < q
    · rw [if_pos h2]
      norm_num
    · rw [if_neg h2]
      exact le_of_not_lt h1

theorem clamp01_le_one (q : ℚ) : clamp01 q ≤ 1 := by
  unfold clamp01
  by_cases h1 : q < 0
  · rw [if_pos h1]
    norm_num
  · rw [if_neg h1]
    by_cases h2 : 1 < q
    · rw [if_pos h2]
    · rw [if_neg h2]
      exact le_of_not_lt h2

theorem chanInt_eq_floor (q : ℚ) : chanInt q = ⌊clamp01 q * 255 + 1/2⌋ := by
  unfold chanInt rustRound
  rw [if_pos (mul_nonneg (clamp01_nonneg q) (by norm_num))]
  exact ratFloor_eq _

theorem chanInt_nonneg (q : ℚ) : 0 ≤ chanInt q := by
  rw [chanInt_eq_floor]
  apply Int.le_floor.mpr
  have := mul_nonneg (clamp01_nonneg q) (show (0:ℚ) ≤ 255 by norm_num)
  push_cast
  linarith

theorem chanInt_le (q : ℚ) : chanInt q ≤ 255 := by
  rw [chanInt_eq_floor]
  have hx : clamp01 q * 255 ≤ 255 := by
    have := mul_le_mul_of_nonneg_right (clamp01_le_one q) (show (0:ℚ) ≤ 255 by norm_num)
    simpa using this
  have : ⌊clamp01 q * 255 + 1/2⌋ < 256 := Int.floor_lt.mpr (by push_cast; linarith)
  omega

theorem chanByte_le (q : ℚ) : chanByte q ≤ 255 := by
  unfold chanByte
  have := chanInt_le q
  omega

theorem floor_half_q : ⌊(1/2 : ℚ)⌋ = 0 := Int.floor_eq_iff.mpr (by norm_num)

theorem floor_255_half : ⌊(511/2 : ℚ)⌋ = 255 := Int.floor_eq_iff.mpr (by norm_num)

theorem chanByte_zero : chanByte 0 = 0 := by
  have h : clamp01 (0 : ℚ) = 0 := by unfold clamp01; norm_num
  have e : (0 : ℚ) * 255 + 1/2 = 1/2 := by norm_num
  unfold chanByte
  rw [chanInt_eq_floor, h, e, floor_half_q]
  rfl

theorem chanByte_one : chanByte 1 = 255 := by
  have h : clamp01 (1 : ℚ) = 1 := by unfold clamp01; norm_num
  have e : (1 : ℚ) * 255 + 1/2 = 511/2 := by norm_num
  unfold chanByte
  rw [chanInt_eq_floor, h, e, floor_255_half]
  rfl

theorem chanByte_three_halves : chanByte (3/2) = 255 := by
  have h : clamp01 (3/2 : ℚ) = 1 := by unfold clamp01; norm_num
  have e : (1 : ℚ) * 255 + 1/2 = 511/2 := by norm_num
  unfold chanByte
  rw [chanInt_eq_floor, h, e, floor_255_half]
  rfl

theorem chanByte_half : chanByte (1/2) = 128 := by
  have h : clamp01 (1/2 : ℚ) = 1/2 := by unfold clamp01; norm_num
  have e : (1/2 : ℚ) * 255 + 1/2 = 128 := by norm_num
  unfold chanByte
  rw [chanInt_eq_floor, h, e]
  simp

theorem chanByte_neg_half : chanByte (-(1/2)) = 0 := by
  have h : clamp01 (-(1/2) : ℚ) = 0 := by unfold clamp01; norm_num
  have e : (0 : ℚ) * 255 + 1/2 = 1/2 := by norm_num
  unfold chanByte
  rw [chanInt_eq_floor, h, e, floor_half_q]
  rfl

theorem quantPixel_black : quantPixel black = [0, 0, 0] := by
  simp [quantPixel, black, chanByte_zero]

theorem quantPixel_white : quantPixel white = [255, 255, 255] := by
  simp [quantPixel, white, chanByte_one]

theorem quantCanvas_C4 : quantCanvas canvasC4 =
    (((List.replicate 15 [0, 0, 0]).set 0 [255, 0, 0]).set 7 [0, 128, 0]).set 14
      [0, 0, 255] := by
  unfold quantCanvas canvasC4 Canvas.write_pixel Canvas.new
  simp only [List.map_set, List.map_replicate, quantPixel, quantPixel_black]
  norm_num [black, chanByte_zero, chanByte_one, chanByte_half, chanByte_three_halves,
    chanByte_neg_half]

theorem quantCanvas_C1 : quantCanvas canvasC1 = List.replicate 12 [255, 255, 255] := by
  unfold quantCanvas canvasC1
  simp [List.map_replicate, quantPixel_white]

theorem quantCanvas_53 : quantCanvas canvas53 = List.replicate 15 [0, 0, 0] := by
  unfold quantCanvas canvas53 Canvas.new
  simp [List.map_replicate, quantPixel_black]

/-- Helper: the all-black 5x3 canvas encodes successfully to `bytes53`. -/
theorem enc53 : ppmEncode canvas53 = .ok bytes53 := by
  unfold ppmEncode
  rw [show canvas53.width = 5 from rfl, show canvas53.height = 3 from rfl, quantCanvas_53]
  decide

/-- Helper: row-major indices of in-range coordinates coincide only for equal
coordinates. -/
theorem rowMajor_inj {w x y x' y' : Nat} (hx : x < w) (hx' : x' < w)
    (h : y * w + x = y' * w + x') : x = x' ∧ y = y' := by
  have hw : 0 < w := lt_of_le_of_lt (Nat.zero_le x) hx
  have hmod := congrArg (· % w) h
  simp only [Nat.add_comm _ _] at hmod
  rw [Nat.add_comm (y * w) x, Nat.add_comm (y' * w) x'] at h
  have hmx : (x + y * w) % w = x := by
    rw [Nat.add_mul_mod_self_right]
    exact Nat.mod_eq_of_lt hx
  have hmx' : (x' + y' * w) % w = x' := by
    rw [Nat.add_mul_mod_self_right]
    exact Nat.mod_eq_of_lt hx'
  have hxx : x = x' := by
    have := congrArg (· % w) h
    simpa [hmx, hmx'] using this
  subst hxx
  refine ⟨rfl, ?_⟩
  have hy : y * w = y' * w := by omega
  exact Nat.eq_of_mul_eq_mul_right hw hy

/-- C4: the 5x3 canvas with pixels (0,0) set to (1.5,0,0), (2,1) set to
(0,0.5,0) and (4,2) set to (-0.5,0,1.0) encodes byte-for-byte to
"P3\n5 3\n255\n255 0 0 0 0 0 0 0 0 0 0 0 0 0 0\n0 0 0 0 0 0 0 128 0 0 0 0 0 0 0\n0 0 0 0 0 0 0 0 0 0 0 0 0 0 255\n";
in particular channel value 0.5 quantizes to 128 (round half away from
zero). -/
theorem claim_C4_roundtrip : ppmEncode canvasC4 = .ok bytesC4 := by
  unfold ppmEncode
  rw [show canvasC4.width = 5 from rfl, show canvasC4.height = 3 from rfl, quantCanvas_C4]
  decide

/-- C1: evaluation at the failing input.  The 12x1 all-white canvas encodes
with pixel-data lines of lengths 67 and 75 (after the three header lines of
lengths 2, 4, 3): the column budget is applied only once per row, the
remainder is not re-wrapped, and the second line exceeds 70 characters. -/
theorem claim_C1_wrap_once :
    (ppmEncode canvasC1).map (fun out => (out.splitOn 10).map List.length) =
      .ok [2, 4, 3, 67, 75, 0] := by
  unfold ppmEncode
  rw [show canvasC1.width = 12 from rfl, show canvasC1.height = 1 from rfl, quantCanvas_C1]
  decide

/-- C2: evaluation at the failing input.  Reading a 3-byte inner buffer with
2-byte caller buffers, the second call (cursor 2) copies exactly one byte but
returns a count of 2 = min(inner.len(), buf.len()). -/
theorem claim_C2_read_count :
    (ppmReadStep [9, 8, 7] 2 2).1 = [7] ∧ (ppmReadStep [9, 8, 7] 2 2).2.1 = 2 := by
  decide

/-- C3: evaluation at the failing input.  Driving PPMHeaderReader::read for the
5x3 header with fresh 1-byte buffers delivers no bytes at all — the first call
stores one byte but returns Ok(0) with the state jumped to Finished — so the
concatenation of the delivered chunks is empty, not the 11-byte header. -/
theorem claim_C3_not_resumable :
    hdrDrive 5 3 1 4 = [] ∧ fullHeader 5 3 ≠ [] := by decide

/-- C7: counterexample.  Canvas::new(0, 5) does not fail: it returns a
zero-area canvas with an empty pixel store. -/
theorem claim_C7_counterexample :
    Canvas.new 0 5 = { width := 0, height := 5, data := [] } := rfl

/-- C7 (amended): Canvas::new performs no validation of its dimensions: for
every width and height, including 0, it returns a canvas of exactly
`width * height` cells all set to black. -/
theorem claim_C7_amended (w h : Nat) :
    (Canvas.new w h).width = w ∧ (Canvas.new w h).height = h ∧
      (Canvas.new w h).data = List.replicate (w * h) black :=
  ⟨rfl, rfl, rfl⟩

/-- C10: writing an in-range pixel makes pixel_at return that color there,
leaves every other in-range coordinate unchanged, and preserves the canvas
dimensions. -/
theorem claim_C10_frame (c : Canvas) (x y x' y' : Nat) (col : Color)
    (hlen : c.data.length = c.width * c.height)
    (hx : x < c.width) (hy : y < c.height) (hx' : x' < c.width) (hy' : y' < c.height) :
    (c.write_pixel (x, y) col).pixel_at (x, y) = some col ∧
      ((x', y') ≠ (x, y) →
        (c.write_pixel (x, y) col).pixel_at (x', y') = c.pixel_at (x', y')) ∧
      (c.write_pixel (x, y) col).width = c.width ∧
      (c.write_pixel (x, y) col).height = c.height := by
  have hidx : y * c.width + x < c.data.length := by
    rw [hlen]
    calc y * c.width + x < y * c.width + c.width := by omega
      _ = (y + 1) * c.width := by ring
      _ ≤ c.height * c.width := Nat.mul_le_mul_right _ (by omega)
      _ = c.width * c.height := Nat.mul_comm _ _
  refine ⟨?_, ?_, rfl, rfl⟩
  · unfold Canvas.write_pixel Canvas.pixel_at
    simp only
    rw [List.get?_eq_getElem?]
    exact List.getElem?_set_eq_of_lt col hidx
  · intro hne
    unfold Canvas.write_pixel Canvas.pixel_at
    simp only
    rw [List.get?_eq_getElem?, List.get?_eq_getElem?]
    apply List.getElem?_set_ne
    intro heq
    rcases rowMajor_inj hx hx' heq with ⟨h1, h2⟩
    exact hne (by simp [Prod.ext_iff, h1, h2])

/-- C10 witness: instantiated on a fresh 2x2 canvas at (0,0) and (1,1). -/
theorem claim_C10_frame_witness :
    (Canvas.new 2 2).data.length = (Canvas.new 2 2).width * (Canvas.new 2 2).height ∧
      0 < (Canvas.new 2 2).width ∧ 0 < (Canvas.new 2 2).height ∧
      (((Canvas.new 2 2).write_pixel (0, 0) white).pixel_at (0, 0) = some white ∧
        ((1, 1) ≠ ((0 : Nat), (0 : Nat)) →
          ((Canvas.new 2 2).write_pixel (0, 0) white).pixel_at (1, 1) =
            (Canvas.new 2 2).pixel_at (1, 1)) ∧
        ((Canvas.new 2 2).write_pixel (0, 0) white).width = (Canvas.new 2 2).width ∧
        ((Canvas.new 2 2).write_pixel (0, 0) white).height = (Canvas.new 2 2).height) :=
  ⟨by decide, by decide, by decide,
    claim_C10_frame (Canvas.new 2 2) 0 0 1 1 white (by decide) (by decide) (by decide)
      (by decide) (by decide)⟩

/-- C5: every emitted channel integer lies in [0, 255]; a channel value below
0.0 encodes as 0 and a channel value above 1.0 encodes as 255 (each channel is
clamped to [0, 1] independently before scaling by 255, as witnessed by
`chanInt` acting on a single channel). -/
theorem claim_C5_clamping (q : ℚ) :
    (0 ≤ chanInt q ∧ chanInt q ≤ 255) ∧ (q < 0 → chanInt q = 0) ∧
      (1 < q → chanInt q = 255) := by
  refine ⟨⟨chanInt_nonneg q, chanInt_le q⟩, ?_, ?_⟩
  · intro hq
    have h : clamp01 q = 0 := by unfold clamp01; rw [if_pos hq]
    have e : (0 : ℚ) * 255 + 1/2 = 1/2 := by norm_num
    rw [chanInt_eq_floor, h, e, floor_half_q]
  · intro hq
    have h : clamp01 q = 1 := by
      unfold clamp01
      rw [if_neg (by linarith), if_pos hq]
    have e : (1 : ℚ) * 255 + 1/2 = 511/2 := by norm_num
    rw [chanInt_eq_floor, h, e, floor_255_half]

/-- C5 witness: instantiated below 0 and above 1. -/
theorem claim_C5_clamping_witness :
    ((-1 : ℚ) < 0 ∧ chanInt (-1) = 0) ∧ ((1 : ℚ) < 2 ∧ chanInt 2 = 255) :=
  ⟨⟨by norm_num, (claim_C5_clamping (-1)).2.1 (by norm_num)⟩,
    ⟨by norm_num, (claim_C5_clamping 2).2.2 (by norm_num)⟩⟩

/-! Decimal-digit length bounds, used to show that the header of any canvas
that can exist in memory fits inside the 32-byte probe buffer of
`read_to_end`. -/

theorem decBytesAux_zero (fuel : Nat) : decBytesAux fuel 0 = [] := by
  cases fuel <;> simp [decBytesAux]

theorem decBytesAux_len_le (fuel : Nat) : ∀ n k, n ≤ fuel → n < 10 ^ k →
    (decBytesAux fuel n).length ≤ k := by
  induction fuel with
  | zero => intro n k _ _; simp [decBytesAux]
  | succ fuel ih =>
    intro n k hf hk
    by_cases h0 : n = 0
    · simp [decBytesAux, h0]
    · rw [decBytesAux, if_neg h0, List.length_append]
      have hk1 : 1 ≤ k := by
        rcases k with _ | k
        · simp at hk; omega
        · omega
      have hrec : n / 10 ≤ fuel := by
        have := Nat.div_lt_self (Nat.pos_of_ne_zero h0) (by norm_num : 1 < 10)
        omega
      have hlt : n / 10 < 10 ^ (k - 1) := by
        rw [Nat.div_lt_iff_lt_mul (by norm_num : 0 < 10)]
        calc n < 10 ^ k := hk
          _ = 10 ^ (k - 1) * 10 := by
            rw [← Nat.pow_succ]
            congr 1
            omega
      have := ih (n / 10) (k - 1) hrec hlt
      simp only [List.length_cons, List.length_nil]
      omega

theorem decBytes_len_le (n k : Nat) (hk : n < 10 ^ k) (hk1 : 1 ≤ k) :
    (decBytes n).length ≤ k := by
  unfold decBytes
  by_cases h0 : n = 0
  · rw [if_pos h0]
    simpa using hk1
  · rw [if_neg h0]
    exact decBytesAux_len_le _ _ _ (Nat.le_succ n) hk

theorem decBytesAux_pow_le (fuel : Nat) : ∀ n, n ≤ fuel → n ≠ 0 →
    10 ^ ((decBytesAux fuel n).length - 1) ≤ n := by
  induction fuel with
  | zero => intro n h1 h2; omega
  | succ fuel ih =>
    intro n hf h0
    rw [decBytesAux, if_neg h0, List.length_append]
    simp only [List.length_cons, List.length_nil]
    set m := (decBytesAux fuel (n / 10)).length with hm
    have goal_eq : m + (0 + 1) - 1 = m := by omega
    rw [goal_eq]
    by_cases hq : n / 10 = 0
    · have : m = 0 := by rw [hm, hq, decBytesAux_zero]; rfl
      rw [this]
      simpa using Nat.pos_of_ne_zero h0
    · have hrec : n / 10 ≤ fuel := by
        have := Nat.div_lt_self (Nat.pos_of_ne_zero h0) (by norm_num : 1 < 10)
        omega
      have ih' := ih (n / 10) hrec hq
      rcases Nat.eq_zero_or_pos m with hm0 | hm1
      · rw [hm0]
        simpa using Nat.pos_of_ne_zero h0
      · calc 10 ^ m = 10 ^ (m - 1) * 10 := by
              rw [← Nat.pow_succ]
              congr 1
              omega
          _ ≤ (n / 10) * 10 := Nat.mul_le_mul_right _ ih'
          _ ≤ n := Nat.div_mul_le_self n 10

theorem decBytes_pow_le (n : Nat) (h0 : n ≠ 0) :
    10 ^ ((decBytes n).length - 1) ≤ n := by
  unfold decBytes
  rw [if_neg h0]
  exact decBytesAux_pow_le _ _ (Nat.le_succ n) h0

theorem decBytes_len_pos (n : Nat) : 1 ≤ (decBytes n).length := by
  unfold decBytes
  by_cases h0 : n = 0
  · rw [if_pos h0]
    simp
  · rw [if_neg h0, decBytesAux, if_neg h0, List.length_append]
    simp

/-- Any canvas whose pixel store really has `width * height` cells of 12 bytes
within the address space has at most 23 decimal digits across its two
dimension fields, hence an at most 32-byte header. -/
theorem header_digits_le (w h : Nat) (hw : w < 2 ^ 64) (hh : h < 2 ^ 64)
    (halloc : 12 * (w * h) < 2 ^ 63) :
    (decBytes w).length + (decBytes h).length ≤ 23 := by
  have h20 : ∀ n, n < 2 ^ 64 → (decBytes n).length ≤ 20 := fun n hn =>
    decBytes_len_le n 20 (lt_of_lt_of_le hn (by norm_num)) (by norm_num)
  have hone : (decBytes 0).length = 1 := rfl
  by_cases hw0 : w = 0
  · rw [hw0, hone]
    have := h20 h hh
    omega
  · by_cases hh0 : h = 0
    · rw [hh0, hone]
      have := h20 w hw
      omega
    · have hwh : w * h < 10 ^ 18 := by
        have h63 : (2 : Nat) ^ 63 = 9223372036854775808 := by norm_num
        have h18 : (10 : Nat) ^ 18 = 1000000000000000000 := by norm_num
        rw [h63] at halloc
        rw [h18]
        omega
      have lw := decBytes_pow_le w hw0
      have lh := decBytes_pow_le h hh0
      set a := (decBytes w).length with ha
      set b := (decBytes h).length with hb
      have ha1 : 1 ≤ a := decBytes_len_pos w
      have hb1 : 1 ≤ b := decBytes_len_pos h
      have hmul : 10 ^ (a - 1) * 10 ^ (b - 1) ≤ w * h := Nat.mul_le_mul lw lh
      rw [← Nat.pow_add] at hmul
      have hlt : 10 ^ (a - 1 + (b - 1)) < 10 ^ 18 := lt_of_le_of_lt hmul hwh
      have := (Nat.pow_lt_pow_iff_right (by norm_num : 1 < 10)).mp hlt
      omega

theorem fullHeader_length (w h : Nat) :
    (fullHeader w h).length = 9 + (decBytes w).length + (decBytes h).length := by
  simp [fullHeader, magicBytes, widthField, heightField, scaleField]
  omega

theorem hdrReadScale_full (bufLen written : Nat) (hfit : written + 4 ≤ bufLen) :
    hdrReadScale bufLen written = ⟨.finished, written + 4, scaleField, written + 4⟩ := by
  have h1 : ¬bufLen - written = 0 := by omega
  have h2 : min (bufLen - written) scaleField.length = 4 := by
    simp only [scaleField, List.length_cons, List.length_nil]
    omega
  unfold hdrReadScale
  rw [if_neg h1]
  simp only [h2]
  rfl

theorem hdrReadHeight_full (h bufLen written : Nat)
    (hfit : written + ((decBytes h).length + 1) + 4 ≤ bufLen) :
    hdrReadHeight h bufLen written =
      ⟨.finished, written + ((decBytes h).length + 1) + 4, heightField h ++ scaleField,
        written + ((decBytes h).length + 1) + 4⟩ := by
  have h1 : ¬bufLen - written = 0 := by omega
  have hlen : (heightField h).length = (decBytes h).length + 1 := by
    simp [heightField]
  have h2 : min (bufLen - written) (heightField h).length = (decBytes h).length + 1 := by
    rw [hlen]
    omega
  unfold hdrReadHeight
  rw [if_neg h1]
  simp only [h2, hdrReadScale_full bufLen (written + ((decBytes h).length + 1)) (by omega),
    List.take_of_length_le (le_of_eq hlen)]

theorem hdrReadWidth_full (w h bufLen written : Nat)
    (hfit : written + ((decBytes w).length + 1) + ((decBytes h).length + 1) + 4 ≤ bufLen) :
    hdrReadWidth w h bufLen written =
      ⟨.finished, written + ((decBytes w).length + 1) + ((decBytes h).length + 1) + 4,
        widthField w ++ (heightField h ++ scaleField),
        written + ((decBytes w).length + 1) + ((decBytes h).length + 1) + 4⟩ := by
  have h1 : ¬bufLen - written = 0 := by omega
  have hlen : (widthField w).length = (decBytes w).length + 1 := by
    simp [widthField]
  have h2 : min (bufLen - written) (widthField w).length = (decBytes w).length + 1 := by
    rw [hlen]
    omega
  unfold hdrReadWidth
  rw [if_neg h1]
  simp only [h2, hdrReadHeight_full h bufLen (written + ((decBytes w).length + 1)) (by omega),
    List.take_of_length_le (le_of_eq hlen)]

theorem hdrReadMagic_full (w h bufLen : Nat)
    (hfit : (fullHeader w h).length ≤ bufLen) :
    hdrReadMagic w h bufLen 0 =
      ⟨.finished, (fullHeader w h).length, fullHeader w h, (fullHeader w h).length⟩ := by
  have hl := fullHeader_length w h
  have h1 : ¬bufLen - 0 = 0 := by omega
  have h2 : min (bufLen - 0) magicBytes.length = 3 := by
    simp only [magicBytes, List.length_cons, List.length_nil]
    omega
  unfold hdrReadMagic
  rw [if_neg h1]
  simp only [h2, hdrReadWidth_full w h bufLen 3 (by omega)]
  rw [hl]
  simp only [HdrOut.mk.injEq]
  refine ⟨trivial, by omega, ?_, by omega⟩
  simp [fullHeader, magicBytes]

/-- The header actually delivered by `read_to_end` equals the complete header
whenever the complete header fits in the probe buffer. -/
theorem hdrDelivered_of_fit (w h bufLen : Nat)
    (hfit : (fullHeader w h).length ≤ bufLen) :
    hdrDelivered w h bufLen = fullHeader w h := by
  unfold hdrDelivered
  rw [hdrReadMagic_full w h bufLen hfit]
  exact List.take_of_length_le (le_refl _)

/-- Helper: shape of a successful encode — the width is nonzero, every row
encoded without a panic, and the output is the delivered header followed by
the flattened row buffers. -/
theorem ppmEncode_ok_shape (c : Canvas) (out : List Nat)
    (h : ppmEncode c = .ok out) :
    c.width ≠ 0 ∧
      ∃ bs, encodeRows (chunksOf c.width (quantCanvas c)) = .ok bs ∧
        out = hdrDelivered c.width c.height 32 ++ bs.flatten := by
  unfold ppmEncode ppmAssemble at h
  by_cases hw : c.width = 0
  · rw [if_pos hw] at h
    exact absurd h (by simp)
  · rw [if_neg hw] at h
    refine ⟨hw, ?_⟩
    split at h
    · simp at h
    · rename_i bs heq
      split at h
      · simp only [Except.ok.injEq] at h
        exact ⟨bs, heq, h.symm⟩
      · simp at h

/-- C6: for every canvas that can exist in memory (its pixel store really
holds `width * height` cells of 12 bytes inside the address space), any
successfully encoded output begins with exactly the header bytes
"P3\n{w} {h}\n255\n". -/
theorem claim_C6_header (c : Canvas) (out : List Nat)
    (hinv : c.data.length = c.width * c.height)
    (hw64 : c.width < 2 ^ 64) (hh64 : c.height < 2 ^ 64)
    (halloc : 12 * c.data.length < 2 ^ 63)
    (henc : ppmEncode c = .ok out) :
    out.take (fullHeader c.width c.height).length = fullHeader c.width c.height := by
  obtain ⟨hw0, bs, hbs, hout⟩ := ppmEncode_ok_shape c out henc
  have hdig : (decBytes c.width).length + (decBytes c.height).length ≤ 23 := by
    apply header_digits_le c.width c.height hw64 hh64
    rw [← hinv]
    exact halloc
  have hfit : (fullHeader c.width c.height).length ≤ 32 := by
    rw [fullHeader_length]
    omega
  rw [hout, hdrDelivered_of_fit _ _ _ hfit]
  exact List.take_left _ _

/-- C6 witness: the all-black 5x3 canvas. -/
theorem claim_C6_header_witness :
    canvas53.data.length = canvas53.width * canvas53.height ∧
      canvas53.width < 2 ^ 64 ∧ canvas53.height < 2 ^ 64 ∧
      12 * canvas53.data.length < 2 ^ 63 ∧ ppmEncode canvas53 = .ok bytes53 ∧
      bytes53.take (fullHeader canvas53.width canvas53.height).length =
        fullHeader canvas53.width canvas53.height :=
  ⟨by decide, by decide, by decide, by decide, enc53,
    claim_C6_header canvas53 bytes53 (by decide) (by decide) (by decide) (by decide) enc53⟩

/-! Facts about row buffers, their trailing bytes, and the backward scan. -/

theorem flatten_getLast? {x : Nat} : ∀ (ls : List (List Nat)),
    (∀ l ∈ ls, l.getLast? = some x) →
    ls.flatten = [] ∨ ls.flatten.getLast? = some x
  | [], _ => Or.inl rfl
  | t :: rest, hall => by
    have ht : t.getLast? = some x := hall t (by simp)
    have hrec := flatten_getLast? rest fun l hl => hall l (by simp [hl])
    rw [List.flatten_cons]
    rcases hrec with h0 | hlast
    · rw [h0, List.append_nil]
      exact Or.inr ht
    · right
      have hne : rest.flatten ≠ [] := by
        intro hc
        rw [hc] at hlast
        simp at hlast
      rw [List.getLast?_append_of_ne_nil _ hne]
      exact hlast

theorem chunksOfAux_mem {α : Type} (w : Nat) (hw : 0 < w) :
    ∀ (fuel : Nat) (l : List α), ∀ r ∈ chunksOfAux w fuel l, r ≠ [] ∧ ∀ p ∈ r, p ∈ l := by
  intro fuel
  induction fuel with
  | zero =>
    intro l r hr
    simp [chunksOfAux] at hr
  | succ fuel ih =>
    intro l r hr
    cases l with
    | nil => simp [chunksOfAux] at hr
    | cons a l' =>
      rw [chunksOfAux] at hr
      rcases List.mem_cons.mp hr with rfl | hmem
      · constructor
        · cases w with
          | zero => omega
          | succ w' => simp [List.take_cons]
        · intro p hp
          exact List.mem_of_mem_take hp
      · obtain ⟨hne, hsub⟩ := ih ((a :: l').drop w) r hmem
        exact ⟨hne, fun p hp => List.mem_of_mem_drop (hsub p hp)⟩

theorem chunksOf_mem {α : Type} (w : Nat) (hw : 0 < w) (l : List α) (r : List α)
    (hr : r ∈ chunksOf w l) : r ≠ [] ∧ ∀ p ∈ r, p ∈ l :=
  chunksOfAux_mem w hw l.length l r hr

theorem quantCanvas_mem (c : Canvas) (p : List Nat) (hp : p ∈ quantCanvas c) :
    ∃ col, p = quantPixel col := by
  unfold quantCanvas at hp
  obtain ⟨col, _, rfl⟩ := List.mem_map.mp hp
  exact ⟨col, rfl⟩

theorem tok_ne_nil (v : Nat) : tok v ≠ [] := by simp [tok]

theorem tok_getLast? (v : Nat) : (tok v).getLast? = some 32 := by
  unfold tok
  rw [List.getLast?_append_of_ne_nil _ (by simp)]
  rfl

theorem tok_length_le (v : Nat) (hv : v ≤ 255) : (tok v).length ≤ 4 := by
  have h3 : (decBytes v).length ≤ 3 := by
    apply decBytes_len_le v 3 _ (by norm_num)
    have : (10 : Nat) ^ 3 = 1000 := by norm_num
    omega
  simp only [tok, List.length_append, List.length_cons, List.length_nil]
  omega

theorem flatten_map_tok_ne_nil (vs : List Nat) (h : vs ≠ []) :
    ((vs.map tok).flatten : List Nat) ≠ [] := by
  match vs, h with
  | v :: rest, _ =>
    simp only [List.map_cons, List.flatten_cons]
    intro hc
    rcases List.append_eq_nil.mp hc with ⟨h1, _⟩
    exact tok_ne_nil v h1

theorem rawRow_ne_nil (row : List (List Nat)) (hrow : row ≠ [])
    (hmem : ∀ p ∈ row, p ≠ []) : rawRow row ≠ [] := by
  unfold rawRow
  apply flatten_map_tok_ne_nil
  match row, hrow with
  | p :: rest, _ =>
    have hp := hmem p (by simp)
    simp only [List.flatten_cons]
    intro hc
    rcases List.append_eq_nil.mp hc with ⟨h1, _⟩
    exact hp h1

theorem rawRow_getLast? (row : List (List Nat)) (hrow : row ≠ [])
    (hmem : ∀ p ∈ row, p ≠ []) : (rawRow row).getLast? = some 32 := by
  have hall : ∀ t ∈ row.flatten.map tok, t.getLast? = some 32 := by
    intro t ht
    obtain ⟨v, _, rfl⟩ := List.mem_map.mp ht
    exact tok_getLast? v
  rcases flatten_getLast? (row.flatten.map tok) hall with h0 | hl
  · exact absurd h0 (rawRow_ne_nil row hrow hmem)
  · exact hl

theorem scanBack_some_spec (b : List Nat) : ∀ n i, scanBack b n = .ok (some i) →
    b[i]? = some 32 ∧ i ≤ n := by
  intro n
  induction n with
  | zero =>
    intro i h
    unfold scanBack at h
    cases hv : b[0]? with
    | none => rw [hv] at h; simp at h
    | some v =>
      simp only [hv] at h
      by_cases h32 : v = 32
      · rw [if_pos h32] at h
        simp only [Except.ok.injEq, Option.some.injEq] at h
        subst h
        rw [hv, h32]
        exact ⟨rfl, le_refl 0⟩
      · rw [if_neg h32] at h
        simp at h
  | succ n ih =>
    intro i h
    unfold scanBack at h
    cases hv : b[n + 1]? with
    | none => rw [hv] at h; simp at h
    | some v =>
      simp only [hv] at h
      by_cases h32 : v = 32
      · rw [if_pos h32] at h
        simp only [Except.ok.injEq, Option.some.injEq] at h
        subst h
        rw [hv, h32]
        exact ⟨rfl, le_refl _⟩
      · rw [if_neg h32] at h
        obtain ⟨h1, h2⟩ := ih i h
        exact ⟨h1, by omega⟩

theorem scanBack_finds (b : List Nat) : ∀ n, n < b.length →
    (∃ j, j ≤ n ∧ b[j]? = some 32) → ∃ i, scanBack b n = .ok (some i) := by
  intro n
  induction n with
  | zero =>
    intro _ hex
    obtain ⟨j, hj, hget⟩ := hex
    have hj0 : j = 0 := by omega
    subst hj0
    exact ⟨0, by simp [scanBack, hget]⟩
  | succ n ih =>
    intro hlt hex
    cases hv : b[n + 1]? with
    | none =>
      rw [List.getElem?_eq_none_iff] at hv
      omega
    | some v =>
      by_cases h32 : v = 32
      · exact ⟨n + 1, by simp [scanBack, hv, h32]⟩
      · obtain ⟨j, hj, hget⟩ := hex
        have hj' : j ≤ n := by
          rcases Nat.lt_or_ge j (n + 1) with hlt' | hge
          · omega
          · have hjn : j = n + 1 := by omega
            rw [hjn, hv] at hget
            simp only [Option.some.injEq] at hget
            exact absurd hget h32
        obtain ⟨i, hi⟩ := ih (by omega) ⟨j, hj', hget⟩
        exact ⟨i, by simp [scanBack, hv, h32, hi]⟩

theorem getLast?_set (l : List Nat) (i x : Nat) (hi : i < l.length) :
    (l.set i x).getLast? = if i = l.length - 1 then some x else l.getLast? := by
  rw [List.getLast?_eq_getElem? , List.getLast?_eq_getElem?, List.length_set]
  by_cases h : i = l.length - 1
  · rw [if_pos h, ← h]
    exact List.getElem?_set_eq_of_lt x hi
  · rw [if_neg h]
    exact List.getElem?_set_ne h

theorem wrapRow_ok_last (raw b : List Nat) (h : wrapRow raw = .ok b)
    (hne : raw ≠ []) (hlast : raw.getLast? = some 32) :
    b ≠ [] ∧ (b.getLast? = some 32 ∨ b.getLast? = some 10) := by
  unfold wrapRow at h
  by_cases hlen : 70 < raw.length
  · rw [if_pos hlen] at h
    cases hscan : scanBack raw 70 with
    | error e => rw [hscan] at h; simp at h
    | ok o =>
      rw [hscan] at h
      cases o with
      | none =>
        simp only [Except.ok.injEq] at h
        subst h
        exact ⟨hne, Or.inl hlast⟩
      | some i =>
        simp only [Except.ok.injEq] at h
        subst h
        obtain ⟨_, hi70⟩ := scanBack_some_spec raw 70 i hscan
        have hilt : i < raw.length := by omega
        constructor
        · intro hc
          have := congrArg List.length hc
          simp only [List.length_set, List.length_nil] at this
          omega
        · rw [getLast?_set raw i 10 hilt]
          by_cases hend : i = raw.length - 1
          · rw [if_pos hend]
            exact Or.inr rfl
          · rw [if_neg hend]
            exact Or.inl hlast
  · rw [if_neg hlen] at h
    simp only [Except.ok.injEq] at h
    subst h
    exact ⟨hne, Or.inl hlast⟩

theorem fixLast_last (b : List Nat) (hb : b ≠ [])
    (h : b.getLast? = some 32 ∨ b.getLast? = some 10) :
    (fixLast b).getLast? = some 10 := by
  unfold fixLast
  rcases h with h32 | h10
  · rw [if_pos h32]
    have hlen : 0 < b.length := List.length_pos.mpr hb
    rw [getLast?_set b _ 10 (by omega)]
    rw [if_pos rfl]
  · rw [if_neg (by rw [h10]; simp)]
    exact h10

theorem encodeRow_ok_last (row : List (List Nat)) (b : List Nat)
    (h : encodeRow row = .ok b) (hrow : row ≠ []) (hmem : ∀ p ∈ row, p ≠ []) :
    b.getLast? = some 10 := by
  have hne := rawRow_ne_nil row hrow hmem
  have hlast := rawRow_getLast? row hrow hmem
  unfold encodeRow at h
  cases hwrap : wrapRow (rawRow row) with
  | error e => rw [hwrap] at h; simp at h
  | ok wb =>
    rw [hwrap] at h
    simp only [Except.ok.injEq] at h
    subst h
    obtain ⟨hwne, hwor⟩ := wrapRow_ok_last (rawRow row) wb hwrap hne hlast
    exact fixLast_last wb hwne hwor

theorem encodeRows_ok_mem : ∀ (rs : List (List (List Nat))) (bs : List (List Nat)),
    encodeRows rs = .ok bs → ∀ b ∈ bs, ∃ r ∈ rs, encodeRow r = .ok b := by
  intro rs
  induction rs with
  | nil =>
    intro bs h b hb
    unfold encodeRows at h
    simp only [Except.ok.injEq] at h
    subst h
    simp at hb
  | cons r rest ih =>
    intro bs h b hb
    unfold encodeRows at h
    cases he0 : encodeRow r with
    | error e => rw [he0] at h; simp at h
    | ok b0 =>
      rw [he0] at h
      cases hes : encodeRows rest with
      | error e => rw [hes] at h; simp at h
      | ok bs0 =>
        rw [hes] at h
        simp only [Except.ok.injEq] at h
        subst h
        rcases List.mem_cons.mp hb with rfl | hmem
        · exact ⟨r, by simp, he0⟩
        · obtain ⟨r', hr', he'⟩ := ih bs0 hes b hmem
          exact ⟨r', by simp [hr'], he'⟩

theorem fullHeader_last (w h : Nat) : (fullHeader w h).getLast? = some 10 := by
  unfold fullHeader
  rw [List.getLast?_append_of_ne_nil _ (by simp [scaleField])]
  rfl

/-- C8: for every canvas that can exist in memory, a successfully encoded
output ends with a newline byte, and every encoded row buffer ends with a
newline (rows never end with a dangling space or mid-number). -/
theorem claim_C8_final_newline (c : Canvas) (out : List Nat)
    (hinv : c.data.length = c.width * c.height)
    (hw64 : c.width < 2 ^ 64) (hh64 : c.height < 2 ^ 64)
    (halloc : 12 * c.data.length < 2 ^ 63)
    (henc : ppmEncode c = .ok out) :
    out.getLast? = some 10 ∧
      ∀ bs, encodeRows (chunksOf c.width (quantCanvas c)) = .ok bs →
        ∀ b ∈ bs, b.getLast? = some 10 := by
  obtain ⟨hw0, bs, hbs, hout⟩ := ppmEncode_ok_shape c out henc
  have hfit : (fullHeader c.width c.height).length ≤ 32 := by
    rw [fullHeader_length]
    have := header_digits_le c.width c.height hw64 hh64 (by rw [← hinv]; exact halloc)
    omega
  have hrows_last : ∀ b ∈ bs, b.getLast? = some 10 := by
    intro b hb
    obtain ⟨r, hr, he⟩ := encodeRows_ok_mem _ _ hbs b hb
    obtain ⟨hrne, hrmem⟩ := chunksOf_mem c.width (Nat.pos_of_ne_zero hw0) _ r hr
    have hmem : ∀ p ∈ r, p ≠ [] := by
      intro p hp
      obtain ⟨col, rfl⟩ := quantCanvas_mem c p (hrmem p hp)
      simp [quantPixel]
    exact encodeRow_ok_last r b he hrne hmem
  constructor
  · rw [hout]
    rcases flatten_getLast? bs hrows_last with h0 | hl
    · rw [h0, List.append_nil, hdrDelivered_of_fit _ _ _ hfit]
      exact fullHeader_last _ _
    · rw [List.getLast?_append_of_ne_nil _ (fun hc => by rw [hc] at hl; simp at hl)]
      exact hl
  · intro bs' hbs'
    rw [hbs'] at hbs
    simp only [Except.ok.injEq] at hbs
    rw [hbs]
    exact hrows_last

/-- C8 witness: the all-black 5x3 canvas. -/
theorem claim_C8_final_newline_witness :
    canvas53.data.length = canvas53.width * canvas53.height ∧
      canvas53.width < 2 ^ 64 ∧ canvas53.height < 2 ^ 64 ∧
      12 * canvas53.data.length < 2 ^ 63 ∧ ppmEncode canvas53 = .ok bytes53 ∧
      bytes53.getLast? = some 10 :=
  ⟨by decide, by decide, by decide, by decide, enc53,
    (claim_C8_final_newline canvas53 bytes53 (by decide) (by decide) (by decide)
      (by decide) enc53).1⟩

theorem flatten_token_window : ∀ (ts : List (List Nat)),
    (∀ t ∈ ts, t ≠ [] ∧ t.length ≤ 4 ∧ t.getLast? = some 32) →
    ∀ i, i + 4 ≤ ts.flatten.length →
    ∃ j, i ≤ j ∧ j < i + 4 ∧ ts.flatten[j]? = some 32 := by
  intro ts
  induction ts with
  | nil =>
    intro _ i hi
    simp at hi
  | cons t rest ih =>
    intro hall i hi
    obtain ⟨htne, htlen, htlast⟩ := hall t (by simp)
    have htpos : 0 < t.length := List.length_pos.mpr htne
    rw [List.flatten_cons] at hi ⊢
    by_cases hit : i < t.length
    · refine ⟨t.length - 1, by omega, by omega, ?_⟩
      rw [List.getElem?_append_left (by omega : t.length - 1 < t.length)]
      rw [List.getLast?_eq_getElem?] at htlast
      exact htlast
    · rw [List.length_append] at hi
      obtain ⟨j, hj1, hj2, hj3⟩ :=
        ih (fun t' ht' => hall t' (by simp [ht'])) (i - t.length) (by omega)
      refine ⟨t.length + j, by omega, by omega, ?_⟩
      rw [List.getElem?_append_right (by omega)]
      have : t.length + j - t.length = j := by omega
      rw [this]
      exact hj3

/-- C9 (amended): the degenerate no-separator case cannot arise from the
quantizer — every raw row buffer is a concatenation of channel groups of at
most 4 bytes each ending in a space, so whenever the buffer is longer than 70
bytes a separator exists at or before column 70 and the backward scan splits
the row without panicking. -/
theorem claim_C9_no_degenerate (vals : List Nat) (hv : ∀ v ∈ vals, v ≤ 255) :
    ∃ b, wrapRow ((vals.map tok).flatten) = .ok b := by
  by_cases hlen : 70 < ((vals.map tok).flatten : List Nat).length
  · have hall : ∀ t ∈ vals.map tok, t ≠ [] ∧ t.length ≤ 4 ∧ t.getLast? = some 32 := by
      intro t ht
      obtain ⟨v, hvm, rfl⟩ := List.mem_map.mp ht
      exact ⟨tok_ne_nil v, tok_length_le v (hv v hvm), tok_getLast? v⟩
    obtain ⟨j, hj1, hj2, hj3⟩ := flatten_token_window (vals.map tok) hall 67 (by omega)
    obtain ⟨i, hi⟩ := scanBack_finds ((vals.map tok).flatten) 70 (by omega)
      ⟨j, by omega, hj3⟩
    refine ⟨((vals.map tok).flatten).set i 10, ?_⟩
    unfold wrapRow
    rw [if_pos hlen, hi]
  · refine ⟨(vals.map tok).flatten, ?_⟩
    unfold wrapRow
    rw [if_neg hlen]

/-- C9 counterexample: on a 71-byte buffer with no separator at all, the
backward scan decrements its index past 0 and underflows — a panic in a debug
build — instead of applying a fallback policy. -/
theorem claim_C9_counterexample : wrapRow (List.replicate 71 65) = .error () := by
  decide

/-- C9 witness: 24 pixels-worth of channel value 255 produce a 96-byte raw
buffer that wraps without error. -/
theorem claim_C9_no_degenerate_witness :
    (∀ v ∈ List.replicate 24 (255 : Nat), v ≤ 255) ∧
      ∃ b, wrapRow (((List.replicate 24 (255 : Nat)).map tok).flatten) = .ok b :=
  ⟨by decide, claim_C9_no_degenerate _ (by decide)⟩

end Canvas2Proof
